import Mathlib

/-!
Verification of `kornia/feature/steerers.py` (`DiscreteSteerer`).

The module holds a square `generator` matrix and exposes:
* `forward(x) = torch.nn.functional.linear(x, generator)` (no bias),
* `steer_descriptions(descriptions, steerer_power, normalize)`:
  a `for _ in range(steerer_power)` loop applying `forward`, followed by an
  optional `torch.nn.functional.normalize(·, dim=-1)`,
* a factory `from_pretrained(generator_type, steerer_order)` building either a
  "C4" block-diagonal permutation generator or an "SO2" matrix-exponential
  generator, and raising `ValueError` otherwise.

Real tensors are embedded as `Matrix (Fin m) (Fin n) ℝ`; the float scalar
`3.14159` from the source is embedded as the real literal `3.14159`;
`torch.matrix_exp` is embedded as `NormedSpace.exp ℝ`.
-/

open scoped Matrix

namespace Steerers

/-! ### Definitions -/

/-- `torch.nn.functional.linear(x, W)` with no bias term:
`out[i][j] = ∑ k, x[i][k] * W[j][k]` (i.e. `x @ W.T`). -/
def linearNoBias {m n p : ℕ} (x : Matrix (Fin m) (Fin n) ℝ)
    (W : Matrix (Fin p) (Fin n) ℝ) : Matrix (Fin m) (Fin p) ℝ :=
  fun i j => ∑ k, x i k * W j k

/-- `DiscreteSteerer.forward(x) = torch.nn.functional.linear(x, self.generator)`. -/
def forward {n m : ℕ} (generator : Matrix (Fin n) (Fin n) ℝ)
    (x : Matrix (Fin m) (Fin n) ℝ) : Matrix (Fin m) (Fin n) ℝ :=
  linearNoBias x generator

/-- Default `eps` of `torch.nn.functional.normalize`. -/
def normEps : ℝ := 1e-12

/-- Euclidean norm of row `i` of `x` (the `dim = -1` norm used by
`torch.nn.functional.normalize`). -/
noncomputable def rowNorm {m n : ℕ} (x : Matrix (Fin m) (Fin n) ℝ) (i : Fin m) : ℝ :=
  Real.sqrt (∑ j, x i j ^ 2)

/-- `torch.nn.functional.normalize(x, dim=-1)`: each row is divided by
`max(‖row‖₂, eps)` with the default `eps = 1e-12`. -/
noncomputable def l2normalize {m n : ℕ} (x : Matrix (Fin m) (Fin n) ℝ) :
    Matrix (Fin m) (Fin n) ℝ :=
  fun i j => x i j / max (rowNorm x i) normEps

/-- `DiscreteSteerer.steer_descriptions(descriptions, steerer_power, normalize)`:
the `for _ in range(steerer_power)` loop applying `forward`, then the optional
normalization. -/
noncomputable def steerDescriptions {n m : ℕ} (generator : Matrix (Fin n) (Fin n) ℝ)
    (descriptions : Matrix (Fin m) (Fin n) ℝ) (steererPower : ℕ)
    (normalize : Bool) : Matrix (Fin m) (Fin n) ℝ :=
  let d := (List.range steererPower).foldl (fun d _ => forward generator d) descriptions
  if normalize then l2normalize d else d

/-- The index equivalence underlying `torch.block_diag` with `k` equal square
blocks of size `d`: block `b` occupies rows and columns `[d*b, d*b + d)`,
i.e. `(position, block) ↦ d * block + position`. -/
def blockIndexEquiv (d k N : ℕ) (h : d * k = N) (hd : 0 < d) :
    Fin d × Fin k ≃ Fin N where
  toFun pq := ⟨d * pq.2.1 + pq.1.1, by
    subst h
    have hp := pq.1.2
    have hq : pq.2.1 + 1 ≤ k := pq.2.2
    calc d * pq.2.1 + pq.1.1 < d * pq.2.1 + d := by omega
    _ = d * (pq.2.1 + 1) := by rw [Nat.mul_succ]
    _ ≤ d * k := Nat.mul_le_mul_left d hq⟩
  invFun i := (⟨i.1 % d, Nat.mod_lt _ hd⟩, ⟨i.1 / d, by
    subst h
    have hi := i.2
    exact Nat.div_lt_of_lt_mul (by omega)⟩)
  left_inv := by
    rintro ⟨⟨p, hp⟩, ⟨q, hq⟩⟩
    have h1 : (d * q + p) % d = p := by
      rw [Nat.mul_add_mod, Nat.mod_eq_of_lt hp]
    have h2 : (d * q + p) / d = q := by
      rw [Nat.mul_add_div hd, Nat.div_eq_of_lt hp, Nat.add_zero]
    simp [h1, h2]
  right_inv := by
    rintro ⟨i, hi⟩
    simp [Nat.div_add_mod]

/-- The 4×4 block `torch.tensor([[0., 1, 0, 0], [0, 0, 1, 0], [0, 0, 0, 1],
[1, 0, 0, 0]])` of the `"C4"` branch. -/
def cyclicPermBlock : Matrix (Fin 4) (Fin 4) ℝ :=
  !![0, 1, 0, 0; 0, 0, 1, 0; 0, 0, 0, 1; 1, 0, 0, 0]

/-- `descriptor_dim = 256` in `from_pretrained`. -/
def descriptorDim : ℕ := 256

/-- The `"C4"` generator:
`torch.block_diag(*(cyclicPermBlock for _ in range(descriptor_dim // 4)))`. -/
def generatorC4 : Matrix (Fin 256) (Fin 256) ℝ :=
  Matrix.reindex (blockIndexEquiv 4 (descriptorDim / 4) 256 (by decide) (by decide))
    (blockIndexEquiv 4 (descriptorDim / 4) 256 (by decide) (by decide))
    (Matrix.blockDiagonal fun _ : Fin (descriptorDim / 4) => cyclicPermBlock)

/-- The 2×2 Lie-algebra block `torch.tensor([[0., j], [-j, 0]])` of the
`"SO2"` branch. -/
def so2LieBlock (j : ℕ) : Matrix (Fin 2) (Fin 2) ℝ :=
  !![0, (j : ℝ); -(j : ℝ), 0]

/-- Size of the leading zero block of the `"SO2"` branch:
`descriptor_dim - 12 * descriptor_dim // 14`.  By Python operator precedence
this is `descriptor_dim - ((12 * descriptor_dim) // 14)`; `-` and `/` below
follow the same precedence and truncation as the source. -/
def so2ZeroDim : ℕ := descriptorDim - 12 * descriptorDim / 14

/-- Repetitions of each frequency block: `range(descriptor_dim // 14)`. -/
def so2Reps : ℕ := descriptorDim / 14

/-- Number of 2×2 blocks passed to `torch.block_diag`: frequencies
`j in range(1, 7)`, each repeated `so2Reps` times. -/
def so2NumBlocks : ℕ := 6 * so2Reps

/-- Frequency of 2×2 block number `q` in the generator expression
`(torch.tensor([[0., j], [-j, 0]]) for j in range(1, 7) for _ in range(descriptor_dim // 14))`:
block `q` carries frequency `q // so2Reps + 1`. -/
def so2Freq (q : ℕ) : ℕ := q / so2Reps + 1

/-- Total size of the `torch.block_diag` result in the `"SO2"` branch: the
zero block plus the 2×2 blocks. -/
def so2Dim : ℕ := so2ZeroDim + 2 * so2NumBlocks

/-- Index layout of `torch.block_diag(zeros, *blocks)` in the `"SO2"` branch:
the zero block occupies the leading `so2ZeroDim` indices, and 2×2 block `q`
occupies indices `so2ZeroDim + 2*q` and `so2ZeroDim + 2*q + 1`. -/
def so2IndexEquiv : Fin so2ZeroDim ⊕ (Fin 2 × Fin so2NumBlocks) ≃ Fin so2Dim :=
  (Equiv.sumCongr (Equiv.refl (Fin so2ZeroDim))
    (blockIndexEquiv 2 so2NumBlocks (2 * so2NumBlocks) rfl (by norm_num))).trans
    finSumFinEquiv

/-- The Lie-algebra generator of the `"SO2"` branch:
`torch.block_diag(torch.zeros([so2ZeroDim, so2ZeroDim]), *blocks)`. -/
def so2LieGenerator : Matrix (Fin so2Dim) (Fin so2Dim) ℝ :=
  Matrix.reindex so2IndexEquiv so2IndexEquiv
    (Matrix.fromBlocks 0 0 0
      (Matrix.blockDiagonal fun q : Fin so2NumBlocks => so2LieBlock (so2Freq q)))

/-- `generator = torch.matrix_exp((2 * 3.14159 / steerer_order) * lie_generator)`. -/
noncomputable def so2Generator (steererOrder : ℕ) : Matrix (Fin so2Dim) (Fin so2Dim) ℝ :=
  NormedSpace.exp ℝ ((2 * 3.14159 / (steererOrder : ℝ)) • so2LieGenerator)

/-- A `DiscreteSteerer` instance: its `generator` parameter together with that
parameter's (square) dimension. -/
structure DiscreteSteerer where
  dim : ℕ
  generator : Matrix (Fin dim) (Fin dim) ℝ

/-- `DiscreteSteerer.from_pretrained(generator_type, steerer_order)`.  The
`raise ValueError` branch is modelled as `none`; `.eval()` only toggles the
train/eval flag and has no numeric content. -/
noncomputable def fromPretrained (generatorType : String) (steererOrder : ℕ) :
    Option DiscreteSteerer :=
  if generatorType = "C4" then some ⟨256, generatorC4⟩
  else if generatorType = "SO2" then some ⟨so2Dim, so2Generator steererOrder⟩
  else none

/-- A 2-D tensor whose shape is part of the value, for modelling the runtime
shape check of `torch.nn.functional.linear`. -/
structure Tensor2 where
  rows : ℕ
  cols : ℕ
  entries : Matrix (Fin rows) (Fin cols) ℝ

/-- `torch.nn.functional.linear(x, W)` (no bias) at runtime-shape level:
`x @ W.T` requires `x.cols = W.cols`; otherwise the primitive raises a
shape-mismatch `RuntimeError`, modelled as `none`. -/
def linearChecked (x W : Tensor2) : Option Tensor2 :=
  if h : x.cols = W.cols then
    some ⟨x.rows, W.rows,
      fun i j => ∑ k : Fin W.cols, x.entries i (Fin.cast h.symm k) * W.entries j k⟩
  else none

/-- The `for _ in range(steerer_power)` loop of `steer_descriptions` at
runtime-shape level: a raised error aborts the call (`Option.bind`). -/
def steerChecked (G : Tensor2) (x : Tensor2) (steererPower : ℕ) : Option Tensor2 :=
  (List.range steererPower).foldl (fun d _ => d.bind fun y => linearChecked y G) (some x)

/-- The representation of `ℂ` on real 2×2 matrices,
`a + b*I ↦ [[a, b], [-b, a]]`, as a ring homomorphism.  It sends `θ*I` to
`θ • [[0, 1], [-1, 0]]`, which lets us compute the matrix exponential of the
antisymmetric `"SO2"` blocks from `Complex.exp`. -/
def complexToM2 : ℂ →+* Matrix (Fin 2) (Fin 2) ℝ where
  toFun z := !![z.re, z.im; -z.im, z.re]
  map_one' := by
    rw [Matrix.one_fin_two]
    norm_num
  map_mul' z w := by
    ext i j
    fin_cases i <;> fin_cases j <;>
      simp [Matrix.mul_apply, Fin.sum_univ_two, Complex.mul_re, Complex.mul_im,
        Matrix.vecHead, Matrix.vecTail] <;> ring
  map_zero' := by
    ext i j
    fin_cases i <;> fin_cases j <;> simp
  map_add' z w := by
    ext i j
    fin_cases i <;> fin_cases j <;>
      simp [Matrix.vecHead, Matrix.vecTail] <;> ring

/-- Embedding a pair of square matrices as a 2×2-block-diagonal matrix,
`(A, D) ↦ fromBlocks A 0 0 D`, as a ring homomorphism. -/
def pairToBlocks (l m : Type) [Fintype l] [Fintype m] [DecidableEq l] [DecidableEq m] :
    (Matrix l l ℝ × Matrix m m ℝ) →+* Matrix (l ⊕ m) (l ⊕ m) ℝ where
  toFun p := Matrix.fromBlocks p.1 0 0 p.2
  map_one' := Matrix.fromBlocks_one
  map_mul' p q := by
    rw [Matrix.fromBlocks_multiply]
    simp
  map_zero' := Matrix.fromBlocks_zero
  map_add' p q := by
    rw [Matrix.fromBlocks_add]
    simp

/-- The 2×2 rotation matrix by angle `α`. -/
noncomputable def rotM (α : ℝ) : Matrix (Fin 2) (Fin 2) ℝ :=
  !![Real.cos α, Real.sin α; -Real.sin α, Real.cos α]

/-! ### Basic lemmas about `forward` and `steer_descriptions` -/

theorem foldl_ignore_eq_iterate {α β : Type} (f : α → α) (l : List β) (x : α) :
    l.foldl (fun d _ => f d) x = f^[l.length] x := by
  induction l generalizing x with
  | nil => simp
  | cons b l ih => simp [ih, Function.iterate_succ_apply]

theorem steerDescriptions_false {n m : ℕ} (G : Matrix (Fin n) (Fin n) ℝ)
    (X : Matrix (Fin m) (Fin n) ℝ) (p : ℕ) :
    steerDescriptions G X p false = (forward G)^[p] X := by
  unfold steerDescriptions
  simp [foldl_ignore_eq_iterate]

theorem steerDescriptions_true {n m : ℕ} (G : Matrix (Fin n) (Fin n) ℝ)
    (X : Matrix (Fin m) (Fin n) ℝ) (p : ℕ) :
    steerDescriptions G X p true = l2normalize (steerDescriptions G X p false) := by
  unfold steerDescriptions
  simp

theorem forward_eq_mul_transpose {n m : ℕ} (G : Matrix (Fin n) (Fin n) ℝ)
    (X : Matrix (Fin m) (Fin n) ℝ) : forward G X = X * Gᵀ := by
  ext i j
  simp [forward, linearNoBias, Matrix.mul_apply, Matrix.transpose_apply]

theorem forward_iterate {n m : ℕ} (G : Matrix (Fin n) (Fin n) ℝ)
    (X : Matrix (Fin m) (Fin n) ℝ) (k : ℕ) :
    (forward G)^[k] X = X * Gᵀ ^ k := by
  induction k with
  | zero => simp
  | succ k ih =>
    rw [Function.iterate_succ_apply', ih, forward_eq_mul_transpose, Matrix.mul_assoc,
      pow_succ]

theorem foldl_bind_none {α β : Type} (f : α → Option α) (l : List β) :
    l.foldl (fun d _ => Option.bind d f) none = none := by
  induction l with
  | nil => rfl
  | cons b l ih => simpa using ih

/-! ### The C4 generator -/

theorem cyclicPermBlock_sq :
    cyclicPermBlock * cyclicPermBlock =
      !![0, 0, 1, 0; 0, 0, 0, 1; 1, 0, 0, 0; 0, 1, 0, 0] := by
  ext i j
  fin_cases i <;> fin_cases j <;>
    simp [cyclicPermBlock, Matrix.mul_apply, Fin.sum_univ_four,
      Matrix.vecHead, Matrix.vecTail]

theorem cyclicPermBlock_pow_four : cyclicPermBlock ^ 4 = 1 := by
  have h4 : cyclicPermBlock ^ 4 = (cyclicPermBlock ^ 2) ^ 2 :=
    pow_mul cyclicPermBlock 2 2
  rw [h4, pow_two, pow_two, cyclicPermBlock_sq]
  ext i j
  fin_cases i <;> fin_cases j <;>
    simp [Matrix.mul_apply, Fin.sum_univ_four, Matrix.one_apply,
      Matrix.vecHead, Matrix.vecTail]

theorem generatorC4_pow_four : generatorC4 ^ 4 = 1 := by
  unfold generatorC4
  rw [← Matrix.reindexAlgEquiv_apply ℝ, ← map_pow, ← Matrix.blockDiagonal_pow]
  have hpow : (fun _ : Fin (descriptorDim / 4) => cyclicPermBlock) ^ 4 =
      (1 : Fin (descriptorDim / 4) → Matrix (Fin 4) (Fin 4) ℝ) := by
    funext b
    simp [cyclicPermBlock_pow_four]
  rw [hpow, Matrix.blockDiagonal_one, Matrix.reindexAlgEquiv_apply,
    Matrix.reindex_apply, Matrix.submatrix_one_equiv]

theorem generatorC4_apply (i j : Fin 256) :
    generatorC4 i j =
      if (i : ℕ) / 4 = (j : ℕ) / 4 then
        cyclicPermBlock ⟨(i : ℕ) % 4, Nat.mod_lt _ (by norm_num)⟩
          ⟨(j : ℕ) % 4, Nat.mod_lt _ (by norm_num)⟩
      else 0 := by
  simp only [generatorC4, Matrix.reindex_apply, Matrix.submatrix_apply,
    blockIndexEquiv, Equiv.coe_fn_symm_mk, Matrix.blockDiagonal_apply]
  by_cases h : (i : ℕ) / 4 = (j : ℕ) / 4 <;>
    simp [Fin.ext_iff, h]

/-! ### Claim theorems (part 1) -/

/-- C2: for every N×N generator `G` and every batch `X` of N-vectors, the
forward pass equals `X * Gᵀ` — the input times the transpose of the stored
generator, with no bias term. -/
theorem forward_is_input_times_generator_transpose (n m : ℕ)
    (G : Matrix (Fin n) (Fin n) ℝ) (X : Matrix (Fin m) (Fin n) ℝ) :
    forward G X = X * Gᵀ :=
  forward_eq_mul_transpose G X

/-- C3: for every batch `X` and every `k`, `steer_descriptions` with
`normalize = false` is `forward` composed with itself `k` times, and with
`steerer_power = 0` it returns `X` unchanged. -/
theorem steer_power_is_iterated_forward :
    (∀ (n m k : ℕ) (G : Matrix (Fin n) (Fin n) ℝ) (X : Matrix (Fin m) (Fin n) ℝ),
      steerDescriptions G X k false = (forward G)^[k] X) ∧
    (∀ (n m : ℕ) (G : Matrix (Fin n) (Fin n) ℝ) (X : Matrix (Fin m) (Fin n) ℝ),
      steerDescriptions G X 0 false = X) := by
  refine ⟨fun n m k G X => steerDescriptions_false G X k, fun n m G X => ?_⟩
  rw [steerDescriptions_false]
  rfl

/-- C5: `from_pretrained("C4")` returns the 256×256 generator made of
`256 / 4 = 64` copies of the 4×4 cyclic permutation block along the diagonal,
and applying the steerer 4 times returns any 256-vector unchanged. -/
theorem c4_generator_blocks_and_period_four :
    (∀ k : ℕ, fromPretrained "C4" k = some ⟨256, generatorC4⟩) ∧
    descriptorDim / 4 = 64 ∧
    (∀ i j : Fin 256, generatorC4 i j =
      if (i : ℕ) / 4 = (j : ℕ) / 4 then
        cyclicPermBlock ⟨(i : ℕ) % 4, Nat.mod_lt _ (by norm_num)⟩
          ⟨(j : ℕ) % 4, Nat.mod_lt _ (by norm_num)⟩
      else 0) ∧
    (∀ (m : ℕ) (X : Matrix (Fin m) (Fin 256) ℝ),
      steerDescriptions generatorC4 X 4 false = X) := by
  refine ⟨fun k => rfl, by decide, generatorC4_apply, fun m X => ?_⟩
  rw [steerDescriptions_false, forward_iterate, ← Matrix.transpose_pow,
    generatorC4_pow_four, Matrix.transpose_one, Matrix.mul_one]

/-- C7: any `generator_type` other than `"C4"` and `"SO2"` makes
`from_pretrained` raise `ValueError` immediately; no steerer is constructed. -/
theorem from_pretrained_invalid_type (s : String) (k : ℕ)
    (h1 : s ≠ "C4") (h2 : s ≠ "SO2") : fromPretrained s k = none := by
  simp [fromPretrained, h1, h2]

theorem from_pretrained_invalid_type_witness :
    ("nope" : String) ≠ "C4" ∧ ("nope" : String) ≠ "SO2" ∧
      fromPretrained "nope" 3 = none :=
  ⟨by decide, by decide, from_pretrained_invalid_type "nope" 3 (by decide) (by decide)⟩

/-- C8: a steerer whose generator is N×N applied to a batch of W-vectors with
`W ≠ N` fails with the shape-mismatch error of the linear primitive, and so
does `steer_descriptions` for any `steerer_power ≥ 1`. -/
theorem shape_mismatch_fails (N M W : ℕ) (G : Matrix (Fin N) (Fin N) ℝ)
    (X : Matrix (Fin M) (Fin W) ℝ) (hW : W ≠ N) :
    linearChecked ⟨M, W, X⟩ ⟨N, N, G⟩ = none ∧
    (∀ p : ℕ, 1 ≤ p → steerChecked ⟨N, N, G⟩ ⟨M, W, X⟩ p = none) := by
  have hlin : linearChecked ⟨M, W, X⟩ ⟨N, N, G⟩ = none := by
    simp [linearChecked, hW]
  refine ⟨hlin, fun p hp => ?_⟩
  obtain ⟨p', rfl⟩ : ∃ p', p = p' + 1 := ⟨p - 1, by omega⟩
  unfold steerChecked
  rw [List.range_succ_eq_map, List.foldl_cons]
  simpa [hlin] using foldl_bind_none (fun y => linearChecked y (⟨N, N, G⟩ : Tensor2))
    (List.map Nat.succ (List.range p'))

theorem shape_mismatch_fails_witness :
    (3 : ℕ) ≠ 2 ∧
    (linearChecked ⟨1, 3, 0⟩ ⟨2, 2, 1⟩ = none ∧
      ∀ p : ℕ, 1 ≤ p → steerChecked ⟨2, 2, 1⟩ ⟨1, 3, 0⟩ p = none) :=
  ⟨by decide, shape_mismatch_fails 2 1 3 1 0 (by decide)⟩

/-- C9: the `steerer_order` argument has no influence on the `"C4"` variant:
`from_pretrained("C4", k₁)` and `from_pretrained("C4", k₂)` coincide for all
`k₁`, `k₂` (in particular for all positive ones). -/
theorem c4_ignores_steerer_order (k1 k2 : ℕ) :
    fromPretrained "C4" k1 = fromPretrained "C4" k2 :=
  rfl

/-- C10: with `steerer_power = 0` and `normalize = true`, `steer_descriptions`
returns the L2-normalized batch — not the input itself: the normalization is
applied even when no steering step is taken. -/
theorem steer_zero_power_normalize_still_normalizes :
    (∀ (n m : ℕ) (G : Matrix (Fin n) (Fin n) ℝ) (X : Matrix (Fin m) (Fin n) ℝ),
      steerDescriptions G X 0 true = l2normalize X) ∧
    steerDescriptions (1 : Matrix (Fin 1) (Fin 1) ℝ) (fun _ _ => 3) 0 true ≠
      (fun _ _ => 3 : Matrix (Fin 1) (Fin 1) ℝ) := by
  constructor
  · intro n m G X
    rw [steerDescriptions_true, steerDescriptions_false]
    rfl
  · intro hcontra
    have hrow : rowNorm (fun _ _ => 3 : Matrix (Fin 1) (Fin 1) ℝ) 0 = 3 := by
      unfold rowNorm
      rw [Fin.sum_univ_one]
      rw [show ((3 : ℝ) ^ 2) = 3 * 3 by ring, Real.sqrt_mul_self (by norm_num)]
    have hentry := congrFun (congrFun hcontra 0) 0
    rw [steerDescriptions_true, steerDescriptions_false] at hentry
    simp only [Function.iterate_zero, id_eq] at hentry
    rw [show l2normalize (fun _ _ => 3 : Matrix (Fin 1) (Fin 1) ℝ) 0 0 =
        3 / max (rowNorm (fun _ _ => 3 : Matrix (Fin 1) (Fin 1) ℝ) 0) normEps from rfl,
      hrow] at hentry
    rw [max_eq_left (by norm_num [normEps])] at hentry
    norm_num at hentry

/-- C1 (the code as written): `from_pretrained("SO2", k)` builds its
block-diagonal Lie-algebra matrix with a leading zero block of size
`256 - (12 * 256) // 14 = 37`, so the resulting generator is 253×253 — not
256×256 as the 256-dimensional descriptor setting requires.  A 256-wide
descriptor batch can therefore not be steered by it. -/
theorem so2_generator_is_253_not_256 :
    (∀ k : ℕ, 0 < k → fromPretrained "SO2" k = some ⟨so2Dim, so2Generator k⟩) ∧
    so2ZeroDim = 37 ∧ so2Dim = 253 ∧ descriptorDim = 256 ∧ so2Dim ≠ descriptorDim ∧
    (∀ X : Matrix (Fin 1) (Fin descriptorDim) ℝ,
      linearChecked ⟨1, descriptorDim, X⟩ ⟨so2Dim, so2Dim, so2Generator 8⟩ = none) := by
  refine ⟨fun k hk => rfl, by decide, by decide, by decide, by decide, fun X => ?_⟩
  simp [linearChecked, show descriptorDim ≠ so2Dim by decide]

theorem so2_generator_is_253_not_256_witness :
    fromPretrained "SO2" 8 = some ⟨so2Dim, so2Generator 8⟩ ∧ so2Dim = 253 :=
  ⟨so2_generator_is_253_not_256.1 8 (by norm_num),
    so2_generator_is_253_not_256.2.2.1⟩

/-! ### Claim C4: normalization -/

/-- C4 as stated is false: a nonzero steered row whose norm lies below the
`eps = 1e-12` floor is divided by `eps` rather than by its norm, so its
normalized row norm is not 1 (here it is `1/10`, far outside any tolerance).
Input: generator `[[1]]`, batch `[[1e-13]]`, `steerer_power = 1`. -/
theorem normalize_tiny_nonzero_row_not_unit :
    rowNorm (steerDescriptions (1 : Matrix (Fin 1) (Fin 1) ℝ)
      (fun _ _ => 1e-13 : Matrix (Fin 1) (Fin 1) ℝ) 1 false) 0 ≠ 0 ∧
    rowNorm (steerDescriptions (1 : Matrix (Fin 1) (Fin 1) ℝ)
      (fun _ _ => 1e-13 : Matrix (Fin 1) (Fin 1) ℝ) 1 true) 0 = 1 / 10 ∧
    (1 / 10 : ℝ) ≠ 1 := by
  have hfalse : steerDescriptions (1 : Matrix (Fin 1) (Fin 1) ℝ)
      (fun _ _ => 1e-13) 1 false = (fun _ _ => 1e-13 : Matrix (Fin 1) (Fin 1) ℝ) := by
    rw [steerDescriptions_false, Function.iterate_one, forward_eq_mul_transpose,
      Matrix.transpose_one, Matrix.mul_one]
  have hrow : rowNorm (fun _ _ => 1e-13 : Matrix (Fin 1) (Fin 1) ℝ) 0 = 1e-13 := by
    unfold rowNorm
    rw [Fin.sum_univ_one, Real.sqrt_sq (by norm_num)]
  have htrue : steerDescriptions (1 : Matrix (Fin 1) (Fin 1) ℝ)
      (fun _ _ => 1e-13) 1 true = (fun _ _ => (1e-13 : ℝ) / 1e-12 : Matrix (Fin 1) (Fin 1) ℝ) := by
    rw [steerDescriptions_true, hfalse]
    funext i j
    have hi : i = 0 := Fin.eq_zero i
    subst hi
    simp only [l2normalize]
    rw [hrow, max_eq_right (by norm_num [normEps])]
    norm_num [normEps]
  refine ⟨by rw [hfalse, hrow]; norm_num, ?_, by norm_num⟩
  rw [htrue]
  unfold rowNorm
  rw [Fin.sum_univ_one]
  rw [show ((1e-13 : ℝ) / 1e-12) = 1 / 10 by norm_num]
  rw [Real.sqrt_sq (by norm_num)]

/-- C4 (amended): if every steered row has Euclidean norm at least the
`eps = 1e-12` floor of `torch.nn.functional.normalize`, then every row of
`steer_descriptions(X, steerer_power, normalize=True)` has norm exactly 1. -/
theorem normalize_unit_rows_above_eps (n m p : ℕ) (G : Matrix (Fin n) (Fin n) ℝ)
    (X : Matrix (Fin m) (Fin n) ℝ)
    (h : ∀ i, normEps ≤ rowNorm (steerDescriptions G X p false) i) :
    ∀ i, rowNorm (steerDescriptions G X p true) i = 1 := by
  intro i
  rw [steerDescriptions_true]
  set Y := steerDescriptions G X p false with hY
  have hν0 : 0 < rowNorm Y i := lt_of_lt_of_le (by norm_num [normEps]) (h i)
  have hmax : max (rowNorm Y i) normEps = rowNorm Y i := max_eq_left (h i)
  have hentry : ∀ j, l2normalize Y i j = Y i j / rowNorm Y i := by
    intro j
    simp only [l2normalize]
    rw [hmax]
  have hsum : ∑ j, l2normalize Y i j ^ 2 = (∑ j, Y i j ^ 2) / rowNorm Y i ^ 2 := by
    rw [Finset.sum_congr rfl fun j _ => by rw [hentry j, div_pow]]
    rw [← Finset.sum_div]
  have h1 : rowNorm (l2normalize Y) i = Real.sqrt (∑ j, l2normalize Y i j ^ 2) := rfl
  have h2 : Real.sqrt (∑ j, Y i j ^ 2) = rowNorm Y i := rfl
  rw [h1, hsum, Real.sqrt_div (Finset.sum_nonneg fun j _ => sq_nonneg _),
    Real.sqrt_sq hν0.le, h2, div_self hν0.ne']

theorem normalize_unit_rows_above_eps_witness :
    (∀ i : Fin 1, normEps ≤ rowNorm (steerDescriptions
      (1 : Matrix (Fin 1) (Fin 1) ℝ) (fun _ _ => 3) 1 false) i) ∧
    (∀ i : Fin 1, rowNorm (steerDescriptions
      (1 : Matrix (Fin 1) (Fin 1) ℝ) (fun _ _ => 3) 1 true) i = 1) := by
  have hfalse : steerDescriptions (1 : Matrix (Fin 1) (Fin 1) ℝ)
      (fun _ _ => 3) 1 false = (fun _ _ => 3 : Matrix (Fin 1) (Fin 1) ℝ) := by
    rw [steerDescriptions_false, Function.iterate_one, forward_eq_mul_transpose,
      Matrix.transpose_one, Matrix.mul_one]
  have h : ∀ i : Fin 1, normEps ≤ rowNorm (steerDescriptions
      (1 : Matrix (Fin 1) (Fin 1) ℝ) (fun _ _ => 3) 1 false) i := by
    intro i
    have hi : i = 0 := Fin.eq_zero i
    rw [hfalse, hi]
    unfold rowNorm
    rw [Fin.sum_univ_one, Real.sqrt_sq (by norm_num)]
    norm_num [normEps]
  exact ⟨h, normalize_unit_rows_above_eps 1 1 1 1 _ h⟩

/-! ### Claim C6: structure of the SO2 generator

`torch.matrix_exp` of the block-diagonal Lie matrix is computed blockwise:
the matrix exponential commutes with reindexing, with the 2×2-block embedding
`pairToBlocks`, and with `Matrix.blockDiagonal`; on a single antisymmetric
block it is a rotation matrix, via the representation `complexToM2`. -/

theorem exp_reindex {K L : Type} [Fintype K] [DecidableEq K] [Fintype L] [DecidableEq L]
    (e : K ≃ L) (M : Matrix K K ℝ) :
    NormedSpace.exp ℝ (Matrix.reindex e e M) = Matrix.reindex e e (NormedSpace.exp ℝ M) := by
  letI : SeminormedRing (Matrix K K ℝ) := Matrix.linftyOpSemiNormedRing
  letI : NormedRing (Matrix K K ℝ) := Matrix.linftyOpNormedRing
  letI : NormedAlgebra ℝ (Matrix K K ℝ) := Matrix.linftyOpNormedAlgebra
  letI : SeminormedRing (Matrix L L ℝ) := Matrix.linftyOpSemiNormedRing
  letI : NormedRing (Matrix L L ℝ) := Matrix.linftyOpNormedRing
  letI : NormedAlgebra ℝ (Matrix L L ℝ) := Matrix.linftyOpNormedAlgebra
  have hcont : Continuous (Matrix.reindexAlgEquiv ℝ ℝ e) := by
    have : Continuous fun M : Matrix K K ℝ => Matrix.reindex e e M := by
      refine continuous_matrix fun i j => ?_
      simp only [Matrix.reindex_apply, Matrix.submatrix_apply]
      exact (continuous_apply _).comp (continuous_apply _)
    exact this
  have h := NormedSpace.map_exp ℝ (Matrix.reindexAlgEquiv ℝ ℝ e) hcont M
  rw [Matrix.reindexAlgEquiv_apply, Matrix.reindexAlgEquiv_apply] at h
  exact h.symm

theorem exp_fromBlocks_diag {l w : Type} [Fintype l] [DecidableEq l] [Fintype w] [DecidableEq w]
    (A : Matrix l l ℝ) (D : Matrix w w ℝ) :
    NormedSpace.exp ℝ (Matrix.fromBlocks A 0 0 D) =
      Matrix.fromBlocks (NormedSpace.exp ℝ A) 0 0 (NormedSpace.exp ℝ D) := by
  letI : SeminormedRing (Matrix l l ℝ) := Matrix.linftyOpSemiNormedRing
  letI : NormedRing (Matrix l l ℝ) := Matrix.linftyOpNormedRing
  letI : NormedAlgebra ℝ (Matrix l l ℝ) := Matrix.linftyOpNormedAlgebra
  letI : SeminormedRing (Matrix w w ℝ) := Matrix.linftyOpSemiNormedRing
  letI : NormedRing (Matrix w w ℝ) := Matrix.linftyOpNormedRing
  letI : NormedAlgebra ℝ (Matrix w w ℝ) := Matrix.linftyOpNormedAlgebra
  letI : SeminormedRing (Matrix (l ⊕ w) (l ⊕ w) ℝ) := Matrix.linftyOpSemiNormedRing
  letI : NormedRing (Matrix (l ⊕ w) (l ⊕ w) ℝ) := Matrix.linftyOpNormedRing
  letI : NormedAlgebra ℝ (Matrix (l ⊕ w) (l ⊕ w) ℝ) := Matrix.linftyOpNormedAlgebra
  have hcont : Continuous (pairToBlocks l w) := by
    have : Continuous fun p : Matrix l l ℝ × Matrix w w ℝ =>
        Matrix.fromBlocks p.1 0 0 p.2 := by
      refine continuous_matrix fun i j => ?_
      rcases i with i | i <;> rcases j with j | j
      · exact (continuous_apply j).comp ((continuous_apply i).comp continuous_fst)
      · exact continuous_const
      · exact continuous_const
      · exact (continuous_apply j).comp ((continuous_apply i).comp continuous_snd)
    exact this
  have h := NormedSpace.map_exp ℝ (pairToBlocks l w) hcont (A, D)
  have hexp : NormedSpace.exp ℝ ((A, D) : Matrix l l ℝ × Matrix w w ℝ) =
      (NormedSpace.exp ℝ A, NormedSpace.exp ℝ D) :=
    Prod.ext (Prod.fst_exp ℝ (A, D)) (Prod.snd_exp ℝ (A, D))
  rw [show Matrix.fromBlocks A 0 0 D = pairToBlocks l w (A, D) from rfl, ← h, hexp]
  rfl

theorem exp_smul_so2LieBlock (c : ℝ) (j : ℕ) :
    NormedSpace.exp ℝ (c • so2LieBlock j) = rotM (c * j) := by
  letI : SeminormedRing (Matrix (Fin 2) (Fin 2) ℝ) := Matrix.linftyOpSemiNormedRing
  letI : NormedRing (Matrix (Fin 2) (Fin 2) ℝ) := Matrix.linftyOpNormedRing
  letI : NormedAlgebra ℝ (Matrix (Fin 2) (Fin 2) ℝ) := Matrix.linftyOpNormedAlgebra
  have hcont : Continuous complexToM2 := by
    have : Continuous fun z : ℂ => (!![z.re, z.im; -z.im, z.re] :
        Matrix (Fin 2) (Fin 2) ℝ) := by
      refine continuous_matrix fun i j => ?_
      fin_cases i <;> fin_cases j <;>
        simp only [Matrix.cons_val', Matrix.cons_val_zero, Matrix.cons_val_one,
          Matrix.head_cons, Matrix.empty_val', Matrix.cons_val_fin_one, Matrix.head_fin_const]
      · exact Complex.continuous_re
      · exact Complex.continuous_im
      · exact Complex.continuous_im.neg
      · exact Complex.continuous_re
    exact this
  have harg : c • so2LieBlock j = complexToM2 ((c * (j : ℝ) : ℝ) * Complex.I) := by
    ext a b
    fin_cases a <;> fin_cases b <;>
      simp [so2LieBlock, complexToM2, Complex.mul_I_re, Complex.mul_I_im,
        Matrix.vecHead, Matrix.vecTail]
  rw [harg, ← NormedSpace.map_exp ℝ complexToM2 hcont]
  have hexpC : NormedSpace.exp ℝ (((c * (j : ℝ) : ℝ) : ℂ) * Complex.I) =
      Complex.exp ((c * (j : ℝ) : ℝ) * Complex.I) := by
    rw [congr_fun NormedSpace.exp_ℝ_ℂ_eq_exp_ℂ_ℂ, ← Complex.exp_eq_exp_ℂ]
  rw [hexpC]
  have hre := Complex.exp_ofReal_mul_I_re (c * (j : ℝ))
  have him := Complex.exp_ofReal_mul_I_im (c * (j : ℝ))
  simp only [Complex.ofReal_mul, Complex.ofReal_natCast] at hre him
  ext a b
  fin_cases a <;> fin_cases b <;>
    simp [complexToM2, rotM, hre, him, Matrix.vecHead, Matrix.vecTail]

theorem smul_so2LieGenerator (c : ℝ) :
    c • so2LieGenerator =
      Matrix.reindex so2IndexEquiv so2IndexEquiv
        (Matrix.fromBlocks 0 0 0
          (Matrix.blockDiagonal (c • fun q : Fin so2NumBlocks => so2LieBlock (so2Freq q)))) := by
  unfold so2LieGenerator
  ext i j
  simp only [Matrix.smul_apply, Matrix.reindex_apply, Matrix.submatrix_apply]
  rcases so2IndexEquiv.symm i with r | ⟨p, q⟩ <;> rcases so2IndexEquiv.symm j with r1 | ⟨p1, q1⟩ <;>
    simp [Matrix.blockDiagonal_apply, Pi.smul_apply, smul_eq_mul, mul_ite, mul_zero]

/-- The matrix exponential of `c • so2LieGenerator` is: identity on the zero
block, and the rotation by angle `c * j` on each frequency-`j` 2×2 block. -/
theorem exp_smul_so2LieGenerator (c : ℝ) :
    NormedSpace.exp ℝ (c • so2LieGenerator) =
      Matrix.reindex so2IndexEquiv so2IndexEquiv
        (Matrix.fromBlocks 1 0 0
          (Matrix.blockDiagonal fun q : Fin so2NumBlocks => rotM (c * so2Freq q))) := by
  letI : SeminormedRing (Matrix (Fin 2) (Fin 2) ℝ) := Matrix.linftyOpSemiNormedRing
  letI : NormedRing (Matrix (Fin 2) (Fin 2) ℝ) := Matrix.linftyOpNormedRing
  letI : NormedAlgebra ℝ (Matrix (Fin 2) (Fin 2) ℝ) := Matrix.linftyOpNormedAlgebra
  have hblocks : NormedSpace.exp ℝ (c • fun q : Fin so2NumBlocks => so2LieBlock (so2Freq q)) =
      fun q : Fin so2NumBlocks => rotM (c * so2Freq q) := by
    funext q
    rw [Pi.coe_exp]
    exact exp_smul_so2LieBlock c (so2Freq q)
  rw [smul_so2LieGenerator, exp_reindex, exp_fromBlocks_diag, NormedSpace.exp_zero,
    Matrix.exp_blockDiagonal, hblocks]

/-- The 8th power of the `"SO2", steerer_order = 8` generator: rotations by
`2 * 3.14159 * j` on the 2×2 blocks (and identity on the zero block). -/
theorem so2Generator8_pow_eight :
    so2Generator 8 ^ 8 =
      Matrix.reindex so2IndexEquiv so2IndexEquiv
        (Matrix.fromBlocks 1 0 0
          (Matrix.blockDiagonal fun q : Fin so2NumBlocks =>
            rotM (2 * 3.14159 * so2Freq q))) := by
  unfold so2Generator
  rw [← Matrix.exp_nsmul ℝ 8]
  rw [← Nat.cast_smul_eq_nsmul ℝ 8, smul_smul]
  have harg : ((8 : ℕ) : ℝ) * (2 * 3.14159 / ((8 : ℕ) : ℝ)) = 2 * 3.14159 := by
    push_cast
    norm_num
  rw [harg, exp_smul_so2LieGenerator]

theorem so2Freq_bounds (q : Fin so2NumBlocks) :
    1 ≤ so2Freq q ∧ so2Freq q ≤ 6 := by
  have h18 : so2Reps = 18 := by decide
  have hN : so2NumBlocks = 108 := by decide
  have hq : (q : ℕ) < 108 := lt_of_lt_of_eq q.2 hN
  unfold so2Freq
  rw [h18]
  omega

theorem rot_entry_sum_bound (j : ℕ) (h1 : 1 ≤ j) (h6 : j ≤ 6) :
    |Real.cos (2 * 3.14159 * j) - 1| + |Real.sin (2 * 3.14159 * j)| ≤ 1e-4 := by
  have hpi1 := Real.pi_gt_d6
  have hpi2 := Real.pi_lt_d6
  set δ : ℝ := 2 * 3.14159 - 2 * Real.pi with hδ
  have hδabs : |δ| ≤ 6e-6 := by
    rw [abs_le]
    constructor <;> [nlinarith; nlinarith]
  have hsplit : 2 * 3.14159 * (j : ℝ) = (j : ℝ) * δ + j * (2 * Real.pi) := by
    rw [hδ]
    ring
  have hcos : Real.cos (2 * 3.14159 * j) = Real.cos ((j : ℝ) * δ) := by
    rw [hsplit, Real.cos_add_nat_mul_two_pi]
  have hsin : Real.sin (2 * 3.14159 * j) = Real.sin ((j : ℝ) * δ) := by
    rw [hsplit, Real.sin_add_nat_mul_two_pi]
  have hjd : |(j : ℝ) * δ| ≤ 3.6e-5 := by
    rw [abs_mul]
    have hj6 : |(j : ℝ)| ≤ 6 := by
      rw [abs_of_nonneg (by positivity)]
      exact_mod_cast h6
    calc |(j : ℝ)| * |δ| ≤ 6 * 6e-6 :=
          mul_le_mul hj6 hδabs (abs_nonneg _) (by norm_num)
    _ ≤ 3.6e-5 := by norm_num
  have hsinb : |Real.sin ((j : ℝ) * δ)| ≤ 3.6e-5 :=
    le_trans Real.abs_sin_le_abs hjd
  have hcosb : |Real.cos ((j : ℝ) * δ) - 1| ≤ 6.5e-10 := by
    have hlow := @Real.one_sub_sq_div_two_le_cos ((j : ℝ) * δ)
    have hup := Real.cos_le_one ((j : ℝ) * δ)
    have hsq : ((j : ℝ) * δ) ^ 2 ≤ 3.6e-5 ^ 2 := by
      rw [← sq_abs]
      exact pow_le_pow_left₀ (abs_nonneg _) hjd 2
    rw [abs_le]
    constructor <;> nlinarith
  rw [hcos, hsin]
  calc |Real.cos ((j : ℝ) * δ) - 1| + |Real.sin ((j : ℝ) * δ)| ≤ 6.5e-10 + 3.6e-5 :=
        add_le_add hcosb hsinb
  _ ≤ 1e-4 := by norm_num

theorem rot_diff_bound (a b co si C : ℝ) (ha : |a| ≤ C) (hb : |b| ≤ C)
    (h : |co - 1| + |si| ≤ 1e-4) :
    |a * co + b * si - a| ≤ 1e-4 * C := by
  have h1 : a * co + b * si - a = a * (co - 1) + b * si := by ring
  rw [h1]
  have hC0 : 0 ≤ C := le_trans (abs_nonneg a) ha
  calc |a * (co - 1) + b * si| ≤ |a * (co - 1)| + |b * si| := abs_add _ _
  _ = |a| * |co - 1| + |b| * |si| := by rw [abs_mul, abs_mul]
  _ ≤ C * |co - 1| + C * |si| := add_le_add
      (mul_le_mul_of_nonneg_right ha (abs_nonneg _))
      (mul_le_mul_of_nonneg_right hb (abs_nonneg _))
  _ = C * (|co - 1| + |si|) := by ring
  _ ≤ C * 1e-4 := mul_le_mul_of_nonneg_left h hC0
  _ = 1e-4 * C := by ring

/-- C6: for the steerer returned by `from_pretrained("SO2", steerer_order=8)`,
applying the generator 8 times to any descriptor vector (of the dimension the
generator acts on) reproduces the original vector within numerical tolerance:
every coordinate moves by at most `1e-4` times any bound on the input
coordinates. -/
theorem so2_order8_eight_applications_approx_identity
    (x : Matrix (Fin 1) (Fin so2Dim) ℝ) (C : ℝ) (hC : ∀ k, |x 0 k| ≤ C)
    (i : Fin so2Dim) :
    |steerDescriptions (so2Generator 8) x 8 false 0 i - x 0 i| ≤ 1e-4 * C := by
  have hC0 : 0 ≤ C := le_trans (abs_nonneg _) (hC ⟨0, by decide⟩)
  rw [steerDescriptions_false, forward_iterate, ← Matrix.transpose_pow,
    so2Generator8_pow_eight]
  set e := so2IndexEquiv with he
  set B := Matrix.fromBlocks (1 : Matrix (Fin so2ZeroDim) (Fin so2ZeroDim) ℝ) 0 0
    (Matrix.blockDiagonal fun q : Fin so2NumBlocks =>
      rotM (2 * 3.14159 * so2Freq q)) with hB
  rw [Matrix.mul_apply]
  have hsum : ∑ k, x 0 k * (Matrix.reindex e e B)ᵀ k i =
      ∑ s, x 0 (e s) * B (e.symm i) s := by
    rw [← Equiv.sum_comp e fun k => x 0 k * (Matrix.reindex e e B)ᵀ k i]
    refine Finset.sum_congr rfl fun s _ => ?_
    rw [Matrix.transpose_apply, Matrix.reindex_apply, Matrix.submatrix_apply,
      Equiv.symm_apply_apply]
  rw [hsum]
  rcases hs : e.symm i with r | ⟨p, q⟩
  · have hi : e (Sum.inl r) = i := by
      rw [← hs, Equiv.apply_symm_apply]
    have hval : ∑ s, x 0 (e s) * B (Sum.inl r) s = x 0 i := by
      rw [hB, Fintype.sum_sum_type]
      simp only [Matrix.fromBlocks_apply₁₁, Matrix.fromBlocks_apply₁₂,
        Matrix.one_apply, Matrix.zero_apply, mul_ite, mul_one, mul_zero,
        Finset.sum_ite_eq, Finset.mem_univ, if_true, Finset.sum_const_zero,
        add_zero]
      rw [hi]
    rw [hval]
    simp only [sub_self, abs_zero]
    exact mul_nonneg (by norm_num) hC0
  · have hi : e (Sum.inr (p, q)) = i := by
      rw [← hs, Equiv.apply_symm_apply]
    have hval : ∑ s, x 0 (e s) * B (Sum.inr (p, q)) s =
        x 0 (e (Sum.inr (0, q))) * rotM (2 * 3.14159 * so2Freq q) p 0 +
          x 0 (e (Sum.inr (1, q))) * rotM (2 * 3.14159 * so2Freq q) p 1 := by
      rw [hB, Fintype.sum_sum_type]
      simp only [Matrix.fromBlocks_apply₂₁, Matrix.fromBlocks_apply₂₂,
        Matrix.zero_apply, mul_zero, Finset.sum_const_zero, zero_add,
        Fintype.sum_prod_type, Matrix.blockDiagonal_apply, mul_ite,
        Finset.sum_ite_eq, Finset.mem_univ, if_true, Fin.sum_univ_two]
    have hfreq := so2Freq_bounds q
    have hbound := rot_entry_sum_bound (so2Freq q) hfreq.1 hfreq.2
    rw [hval, ← hi]
    have hr00 : rotM (2 * 3.14159 * so2Freq q) 0 0 =
        Real.cos (2 * 3.14159 * so2Freq q) := rfl
    have hr01 : rotM (2 * 3.14159 * so2Freq q) 0 1 =
        Real.sin (2 * 3.14159 * so2Freq q) := rfl
    have hr10 : rotM (2 * 3.14159 * so2Freq q) 1 0 =
        -Real.sin (2 * 3.14159 * so2Freq q) := rfl
    have hr11 : rotM (2 * 3.14159 * so2Freq q) 1 1 =
        Real.cos (2 * 3.14159 * so2Freq q) := rfl
    fin_cases p
    · simp only [Fin.zero_eta, Fin.mk_zero, Fin.isValue]
      rw [hr00, hr01]
      exact rot_diff_bound _ _ _ _ C (hC _) (hC _) hbound
    · simp only [Fin.mk_one, Fin.isValue]
      rw [hr10, hr11]
      have hcomm : x 0 (e (Sum.inr (0, q))) * -Real.sin (2 * 3.14159 * so2Freq q) +
          x 0 (e (Sum.inr (1, q))) * Real.cos (2 * 3.14159 * so2Freq q) -
          x 0 (e (Sum.inr (1, q))) =
          x 0 (e (Sum.inr (1, q))) * Real.cos (2 * 3.14159 * so2Freq q) +
          x 0 (e (Sum.inr (0, q))) * -Real.sin (2 * 3.14159 * so2Freq q) -
          x 0 (e (Sum.inr (1, q))) := by ring
      rw [hcomm]
      refine rot_diff_bound _ _ _ _ C (hC _) (hC _) ?_
      rw [abs_neg]
      exact hbound

theorem so2_order8_approx_identity_witness :
    (∀ k : Fin so2Dim, |(fun _ _ => 1 : Matrix (Fin 1) (Fin so2Dim) ℝ) 0 k| ≤ (1 : ℝ)) ∧
    |steerDescriptions (so2Generator 8)
      (fun _ _ => 1 : Matrix (Fin 1) (Fin so2Dim) ℝ) 8 false 0 ⟨0, by decide⟩ -
      (fun _ _ => 1 : Matrix (Fin 1) (Fin so2Dim) ℝ) 0 ⟨0, by decide⟩| ≤ 1e-4 * 1 := by
  have h : ∀ k : Fin so2Dim, |(fun _ _ => 1 : Matrix (Fin 1) (Fin so2Dim) ℝ) 0 k| ≤ (1 : ℝ) := by
    intro k
    norm_num
  exact ⟨h, so2_order8_eight_applications_approx_identity
    (fun _ _ => 1 : Matrix (Fin 1) (Fin so2Dim) ℝ) 1 h ⟨0, by decide⟩⟩

end Steerers
